import Mathlib

/-!
Shallow embedding of the core of the xi-win front end:

* `src/linecache.rs` — the line-cache diff engine (`Line::from_json`,
  `LineCache::apply_update`, `height`, `get_line`, `count_utf16`);
* `src/textline.rs` — the wire→native offset conversion
  (`conv_utf16_to_utf8_offset`);
* `src/rpc.rs` — the transport correlator (`Core::new`'s receive loop and
  `Core::send_request`).

Rust strings are modelled as lists of bytes (`List Nat`, each < 0x100);
JSON values mirror `serde_json::Value` with integers modelled as `Int`.
A Rust panic (e.g. `Option::unwrap` on `None`, or string slicing at an
out-of-bounds / non-char-boundary index) is modelled by `Option.none` in
the result type of the embedded function.
-/

/-- ASCII string literal as a list of bytes (UTF-8 of an ASCII string). -/
def ascii (s : String) : List Nat := s.data.map Char.toNat

/-- Model of `serde_json::Value`.  Object keys are byte strings; numbers
are modelled as mathematical integers (the protocol only uses integers). -/
inductive Json where
  | null
  | bool (b : Bool)
  | num (n : Int)
  | str (s : List Nat)
  | arr (elems : List Json)
  | obj (fields : List (List Nat × Json))

/-- `v[key]` of `serde_json`: on an object, the value at `key`, otherwise
(missing key or non-object) `Value::Null`. -/
def Json.index (v : Json) (key : List Nat) : Json :=
  match v with
  | .obj fields =>
    match fields.find? (fun kv => kv.1 == key) with
    | some kv => kv.2
    | none => .null
  | _ => .null

/-- `Value::as_str`. -/
def Json.as_str : Json → Option (List Nat)
  | .str s => some s
  | _ => none

/-- `Value::as_u64`: the number, if it is an integer representable as
`u64` — non-negative and below `2 ^ 64`. -/
def Json.as_u64 : Json → Option Nat
  | .num (.ofNat m) => if m < 2 ^ 64 then some m else none
  | _ => none

/-- `Value::as_i64`: the number, if it is an integer representable as
`i64` — in `[-2 ^ 63, 2 ^ 63)` (note `Int.negSucc m = -(m + 1)`). -/
def Json.as_i64 : Json → Option Int
  | .num (.ofNat m) => if m < 2 ^ 63 then some (.ofNat m) else none
  | .num (.negSucc m) => if m < 2 ^ 63 then some (.negSucc m) else none
  | _ => none

/-- `Value::as_array`. -/
def Json.as_array : Json → Option (List Json)
  | .arr xs => some xs
  | _ => none

/-- `Value == "literal"` (serde's `PartialEq<str>` on `Value`): true iff the
value is a string with exactly that content. -/
def jeqStr (v : Json) (s : List Nat) : Bool :=
  match v with
  | .str t => t == s
  | _ => false

/-- `i64` wrap-around of an integer (release-mode two's-complement add). -/
def i64wrap (x : Int) : Int :=
  (x + Int.ofNat (2 ^ 63)) % Int.ofNat (2 ^ 64) - Int.ofNat (2 ^ 63)

/-- `x as usize` on an `i64` value: two's-complement reinterpretation
(64-bit target). -/
def i64ToUsize (x : Int) : Nat :=
  ((x % Int.ofNat (2 ^ 64) + Int.ofNat (2 ^ 64)) % Int.ofNat (2 ^ 64)).toNat

/-- Is byte `b` a UTF-8 continuation byte?  The source's test
`b as i8 >= -0x40` (linecache.rs:124, textline.rs:90) is exactly
`¬ isCont b` for bytes. -/
def isCont (b : Nat) : Bool := 0x80 ≤ b && b < 0xC0

/-- The contribution of one byte to `count_utf16`: `+1` if
`b as i8 >= -0x40` (a non-continuation byte), and another `+1` if
`b >= 0xf0` (the lead of a 4-byte sequence, i.e. a surrogate pair). -/
def byteUnits (b : Nat) : Nat :=
  (if b < 0x80 ∨ 0xC0 ≤ b then 1 else 0) + (if 0xF0 ≤ b then 1 else 0)

/-- `count_utf16` (linecache.rs:121-132): the number of UTF-16 code units
of a byte string, summed byte by byte. -/
def count_utf16 : List Nat → Nat
  | [] => 0
  | b :: bs => byteUnits b + count_utf16 bs

/-- `str::is_char_boundary` of Rust: `i = 0`, or `i = len`, or the byte at
`i` is not a continuation byte. -/
def isCharBoundary (s : List Nat) (i : Nat) : Bool :=
  if i = 0 then true
  else
    match s.get? i with
    | some b => !(isCont b)
    | none => i == s.length

/-- `&s[a..b]` of Rust: defined (`some`) iff `a ≤ b` and both ends are char
boundaries (which forces `b ≤ s.length`); otherwise the slice panics
(`none`). -/
def strSlice (s : List Nat) (a b : Nat) : Option (List Nat) :=
  if a ≤ b ∧ isCharBoundary s a ∧ isCharBoundary s b then
    some ((s.take b).drop a)
  else
    none

/-- The native→wire conversion as the source composes it
(`count_utf16(&text[..offset])`, linecache.rs:31 and :42): `none` models the
slicing panic at an offset that is not a char boundary. -/
def nativeOffsetToWire (s : List Nat) (i : Nat) : Option Nat :=
  (strSlice s 0 i).map count_utf16

/-- `conv_utf16_to_utf8_offset`'s loop (textline.rs:86-101): scan bytes,
accumulating the running UTF-16 count `cnt`; return the index `i` of the
first byte at which the count exceeds the target, else the length. -/
def convAux (target : Nat) : Nat → Nat → List Nat → Nat
  | _, i, [] => i
  | cnt, i, b :: rest =>
    let cnt' := cnt + byteUnits b
    if target < cnt' then i else convAux target cnt' (i + 1) rest

/-- `conv_utf16_to_utf8_offset` (textline.rs:86-101): wire (UTF-16 code
unit) offset to native (byte) offset. -/
def conv_utf16_to_utf8_offset (s : List Nat) (utf16_offset : Nat) : Nat :=
  convAux utf16_offset 0 0 s

/-- `StyleSpan` (linecache.rs).  `start`/`stop` model `range.start`/
`range.end` (UTF-16 code units). -/
structure StyleSpan where
  style_id : Nat
  start : Nat
  stop : Nat
deriving DecidableEq

/-- `Line` (linecache.rs): text bytes, caret offsets in UTF-16 units,
style spans. -/
structure Line where
  text : List Nat
  cursor : List Nat
  styles : List StyleSpan
deriving DecidableEq

/-- The cursor-decoding loop of `Line::from_json` (linecache.rs:27-33):
each entry is `c.as_u64().unwrap()` (`none` on failure) converted by
`count_utf16(&text[..offset])` (`none` on a slicing panic). -/
def cursorLoop (text : List Nat) : List Json → Option (List Nat)
  | [] => some []
  | c :: cs =>
    match c.as_u64 with
    | none => none
    | some offset_utf8 =>
      match nativeOffsetToWire text offset_utf8 with
      | none => none
      | some u =>
        match cursorLoop text cs with
        | none => none
        | some rest => some (u :: rest)

/-- The styles-decoding loop of `Line::from_json` (linecache.rs:35-51):
`arr.chunks(3)` with indexing `triple[0]`, `triple[1]`, `triple[2]` — a
trailing chunk of fewer than 3 elements panics (`none`); deltas are `i64`
with wrap-around arithmetic, cast to `usize` for slicing. -/
def stylesLoop (text : List Nat) : Int → List Json → Option (List StyleSpan)
  | _, [] => some []
  | ix, t0 :: t1 :: t2 :: rest =>
    match t0.as_i64 with
    | none => none
    | some d0 =>
      let start : Int := i64wrap (ix + d0)
      match t1.as_i64 with
      | none => none
      | some d1 =>
        let e : Int := i64wrap (start + d1)
        match t2.as_u64 with
        | none => none
        | some style_id =>
          match strSlice text 0 (i64ToUsize start) with
          | none => none
          | some pre =>
            let start_utf16 := count_utf16 pre
            match strSlice text (i64ToUsize start) (i64ToUsize e) with
            | none => none
            | some mid =>
              let end_utf16 := start_utf16 + count_utf16 mid
              match stylesLoop text e rest with
              | none => none
              | some tail =>
                some ({ style_id := style_id, start := start_utf16,
                        stop := end_utf16 } :: tail)
  | _, _ :: _ => none

/-- `Line::from_json` (linecache.rs:24-57).  The source `unwrap`s every
field access; `none` models those panics (the source's own TODO at
linecache.rs:23 says it should instead return a `Result`). -/
def Line.from_json (v : Json) : Option Line :=
  match (Json.index v (ascii "text")).as_str with
  | none => none
  | some text =>
    match
      (match (Json.index v (ascii "cursor")).as_array with
       | some arr => cursorLoop text arr
       | none => some []) with
    | none => none
    | some cursor =>
      match
        (match (Json.index v (ascii "styles")).as_array with
         | some arr => stylesLoop text 0 arr
         | none => some []) with
      | none => none
      | some styles => some { text := text, cursor := cursor, styles := styles }

/-- `LineCache` (linecache.rs:72-75). -/
structure LineCache where
  lines : List (Option Line)
deriving DecidableEq

/-- The `copy` loop of `apply_update` (linecache.rs:98-100): push
`old_iter.next().unwrap_or_default()` `n` times — past the end of the old
snapshot this pushes `None`.  Returns (pushed entries, remaining old). -/
def copyN : Nat → List (Option Line) → List (Option Line) × List (Option Line)
  | 0, old => ([], old)
  | n + 1, [] =>
    let p := copyN n []
    (none :: p.1, p.2)
  | n + 1, x :: xs =>
    let p := copyN n xs
    (x :: p.1, p.2)

/-- The `ins` loop of `apply_update` (linecache.rs:92-95): parse each raw
line with `Line::from_json`, failing (panicking) at the first bad one. -/
def parseLines : List Json → Option (List Line)
  | [] => some []
  | l :: ls =>
    match Line.from_json l with
    | none => none
    | some line =>
      match parseLines ls with
      | none => none
      | some rest => some (line :: rest)

/-- The op loop of `apply_update` (linecache.rs:89-108), with the lines
built so far (`acc`, the source's `self.lines`) and the unread rest of the
old snapshot (`old`, the source's `old_iter`).  Notes:
* `skip` performs `old_iter.nth(n)` (linecache.rs:103), and
  `Iterator::nth(n)` consumes `n + 1` elements, hence `old.drop (n + 1)`;
  its `usize::try_from(n)` never fails on a 64-bit target;
* an unknown op type falls through every branch and is ignored. -/
def applyOps (acc old : List (Option Line)) : List Json → Option (List (Option Line))
  | [] => some acc
  | op :: ops =>
    let op_type := Json.index op (ascii "op")
    if jeqStr op_type (ascii "ins") then
      match (Json.index op (ascii "lines")).as_array with
      | none => none
      | some ls =>
        match parseLines ls with
        | none => none
        | some parsed => applyOps (acc ++ parsed.map some) old ops
    else if jeqStr op_type (ascii "copy") then
      match (Json.index op (ascii "n")).as_u64 with
      | none => none
      | some n =>
        let p := copyN n old
        applyOps (acc ++ p.1) p.2 ops
    else if jeqStr op_type (ascii "skip") then
      match (Json.index op (ascii "n")).as_u64 with
      | none => none
      | some n => applyOps acc (old.drop (n + 1)) ops
    else if jeqStr op_type (ascii "invalidate") then
      match (Json.index op (ascii "n")).as_u64 with
      | none => none
      | some n => applyOps (acc ++ List.replicate n none) old ops
    else
      applyOps acc old ops

/-- `LineCache::apply_update` (linecache.rs:86-109).  In the source the
method mutates `self` and returns `()`, panicking on malformed input;
here the new cache is returned, with `none` modelling a panic (abort),
not a returned error value. -/
def LineCache.apply_update (cache : LineCache) (update : Json) : Option LineCache :=
  match (Json.index update (ascii "ops")).as_array with
  | none => none
  | some ops => (applyOps [] cache.lines ops).map LineCache.mk

/-- `LineCache::height` (linecache.rs:111-113). -/
def LineCache.height (c : LineCache) : Nat := c.lines.length

/-- `LineCache::get_line` (linecache.rs:115-117):
`lines.get(i).and_then(Option::as_ref)`. -/
def LineCache.get_line (c : LineCache) (i : Nat) : Option Line :=
  (c.lines.get? i).bind (fun x => x)

/-!
## The transport correlator (rpc.rs)

The pending map (`BTreeMap<u64, Box<dyn Callback>>`) is modelled as a
key-sorted association list; callbacks are opaque values of a type
parameter `κ`.  The receive loop's body (rpc.rs:68-82) is modelled as a
state transformer that also emits the ordered trace of its atomic actions
(handler invocation, lock acquire/release, map removal, completion
invocation, logging), so that ordering claims about locking can be stated.
-/

/-- One atomic action of the receive loop, in program order. -/
inductive RpcEvent (κ : Type) where
  | notify (method : List Nat) (params : Json)
  | lockAcquire
  | removePending (id : Nat)
  | invokeCompletion (cb : κ) (result : Json)
  | lockRelease
  | logUnexpected
  | logUnknown

/-- `BTreeMap::remove`: the value at `id` (if any) and the map without it.
Removing an absent key returns the map unchanged. -/
def lookupRemove (id : Nat) : List (Nat × κ) → Option κ × List (Nat × κ)
  | [] => (none, [])
  | (k, v) :: rest =>
    if k = id then (some v, rest)
    else
      let p := lookupRemove id rest
      (p.1, (k, v) :: p.2)

/-- `BTreeMap::insert`: key-sorted insert, replacing an existing entry. -/
def insertPending (id : Nat) (cb : κ) : List (Nat × κ) → List (Nat × κ)
  | [] => [(id, cb)]
  | (k, v) :: rest =>
    if id < k then (id, cb) :: (k, v) :: rest
    else if id = k then (id, cb) :: rest
    else (k, v) :: insertPending id cb rest

/-- One iteration of the receive loop (rpc.rs:68-82) on message `msg`:

* if `msg["method"]` is a string, invoke the handler (no core lock taken);
* else if `msg["id"].as_u64()` is some id, lock the state, remove the
  pending entry, and either invoke its completion — **while the lock is
  still held**, since the `MutexGuard` bound at rpc.rs:72 lives to the end
  of the block enclosing the `map_or_else` — or log "unexpected result";
  the lock is released when the guard is dropped, after the call returns;
* else log the message at rpc level.

Returns the new pending map and the trace of actions in program order. -/
def handleMsg (pending : List (Nat × κ)) (msg : Json) :
    List (Nat × κ) × List (RpcEvent κ) :=
  match Json.index msg (ascii "method") with
  | .str method => (pending, [.notify method (Json.index msg (ascii "params"))])
  | _ =>
    match (Json.index msg (ascii "id")).as_u64 with
    | some id =>
      let p := lookupRemove id pending
      match p.1 with
      | some cb =>
        (p.2, [.lockAcquire, .removePending id,
               .invokeCompletion cb (Json.index msg (ascii "result")), .lockRelease])
      | none =>
        (p.2, [.lockAcquire, .removePending id, .logUnexpected, .lockRelease])
    | none => (pending, [.logUnknown])

/-- The receive loop (rpc.rs:68): process the inbound messages in order,
threading the pending map and concatenating the traces.  The loop body is
total — no message shape terminates it. -/
def runLoop (pending : List (Nat × κ)) : List Json → List (Nat × κ) × List (RpcEvent κ)
  | [] => (pending, [])
  | m :: ms =>
    let p := handleMsg pending m
    let q := runLoop p.1 ms
    (q.1, p.2 ++ q.2)

/-- Does every completion invocation in the trace happen with no lock
held?  Scans the trace tracking the lock depth. -/
def invokedUnlocked : Nat → List (RpcEvent κ) → Bool
  | _, [] => true
  | d, .lockAcquire :: tr => invokedUnlocked (d + 1) tr
  | d, .lockRelease :: tr => invokedUnlocked (d - 1) tr
  | d, .invokeCompletion _ _ :: tr => d == 0 && invokedUnlocked d tr
  | d, _ :: tr => invokedUnlocked d tr

/-- `CoreState` (rpc.rs:18-22) plus the ordered list of messages framed to
`xi_peer` (the `outbox`), so that what `send_request` writes is part of
the model. -/
structure CoreState (κ : Type) where
  id : Nat
  pending : List (Nat × κ)
  outbox : List Json

/-- The state set up by `Core::new` (rpc.rs:58-62): id counter 0, no
pending requests. -/
def CoreState.initial (κ : Type) : CoreState κ :=
  { id := 0, pending := [], outbox := [] }

/-- `Core::send_request` (rpc.rs:97-111), the whole body of which runs
under the single state mutex: read the current id, frame
`{method, params, id}` to the peer, record the completion in the pending
map, then increment the id (a `u64`, hence mod `2 ^ 64`).  Also returns
the id the call allocated. -/
def Core.send_request (st : CoreState κ) (method : List Nat) (params : Json)
    (callback : κ) : CoreState κ × Nat :=
  let id := st.id
  let cmd := Json.obj [(ascii "method", .str method), (ascii "params", params),
                       (ascii "id", .num (Int.ofNat id))]
  ({ id := (st.id + 1) % 2 ^ 64,
     pending := insertPending id callback st.pending,
     outbox := st.outbox ++ [cmd] }, id)

/-- A sequence of `send_request` calls (the mutex serializes them), with
the list of ids they were allocated, in call order. -/
def sendRequests (st : CoreState κ) : List (List Nat × Json × κ) → CoreState κ × List Nat
  | [] => (st, [])
  | (m, p, cb) :: rest =>
    let r := Core.send_request st m p cb
    let q := sendRequests r.1 rest
    (q.1, r.2 :: q.2)

/-!
## UTF-8 structure and supporting lemmas for the offset codec
-/

/-- The length of a UTF-8 sequence as dictated by its lead byte. -/
def leadLen (b : Nat) : Nat :=
  if b < 0x80 then 1 else if b < 0xE0 then 2 else if b < 0xF0 then 3 else 4

/-- Structural well-formedness of one encoded code point: a
non-continuation lead byte followed by continuation bytes, with as many
bytes in total as the lead dictates (4 exactly when the lead is `≥ 0xF0`,
the surrogate-pair case). -/
def wfChar : List Nat → Bool
  | [] => false
  | h :: t =>
    decide (h < 0x100) && !(isCont h)
      && t.all (fun b => isCont b && decide (b < 0x100))
      && decide ((h :: t).length = leadLen h)

theorem count_utf16_append (a b : List Nat) :
    count_utf16 (a ++ b) = count_utf16 a + count_utf16 b := by
  induction a with
  | nil => simp [count_utf16]
  | cons x xs ih => simp [count_utf16, ih, Nat.add_assoc]

theorem byteUnits_pos_of_not_cont {b : Nat} (h : isCont b = false) :
    1 ≤ byteUnits b := by
  simp only [isCont, Bool.and_eq_false_imp, decide_eq_true_eq,
    decide_eq_false_iff_not, not_lt] at h
  unfold byteUnits
  rcases Nat.lt_or_ge b 0x80 with hb | hb
  · rw [if_pos (Or.inl hb)]; omega
  · rw [if_pos (Or.inr (h hb))]; omega

theorem byteUnits_of_cont {b : Nat} (h : isCont b = true) : byteUnits b = 0 := by
  simp only [isCont, Bool.and_eq_true, decide_eq_true_eq] at h
  unfold byteUnits
  rw [if_neg (by omega), if_neg (by omega)]

theorem byteUnits_of_f0 {b : Nat} (h : 0xF0 ≤ b) : byteUnits b = 2 := by
  unfold byteUnits
  rw [if_pos (Or.inr (by omega)), if_pos h]

theorem count_utf16_of_all_cont {t : List Nat} (h : ∀ b ∈ t, isCont b = true) :
    count_utf16 t = 0 := by
  induction t with
  | nil => rfl
  | cons b bs ih =>
    have hb := byteUnits_of_cont (h b (List.mem_cons_self b bs))
    have := ih (fun x hx => h x (List.mem_cons_of_mem b hx))
    simp [count_utf16, hb, this]

theorem wfChar_cons {h : Nat} {t : List Nat} (hw : wfChar (h :: t) = true) :
    isCont h = false ∧ (∀ b ∈ t, isCont b = true) ∧ (h :: t).length = leadLen h := by
  simp only [wfChar, Bool.and_eq_true, decide_eq_true_eq, Bool.not_eq_true',
    List.all_eq_true] at hw
  exact ⟨hw.1.1.2, fun b hb => ((hw.1.2 b hb).1 : _), hw.2⟩

theorem count_utf16_char {h : Nat} {t : List Nat} (hw : wfChar (h :: t) = true) :
    count_utf16 (h :: t) = if 0xF0 ≤ h then 2 else 1 := by
  obtain ⟨hc, ht, _⟩ := wfChar_cons hw
  have h0 : count_utf16 t = 0 := count_utf16_of_all_cont ht
  show byteUnits h + count_utf16 t = _
  rw [h0]
  rcases Nat.lt_or_ge h 0xF0 with hf | hf
  · rw [if_neg (by omega)]
    simp only [isCont, Bool.and_eq_false_imp, decide_eq_true_eq,
      decide_eq_false_iff_not, not_lt] at hc
    unfold byteUnits
    rcases Nat.lt_or_ge h 0x80 with hb | hb
    · rw [if_pos (Or.inl hb), if_neg (by omega)]
    · rw [if_pos (Or.inr (hc hb)), if_neg (by omega)]
  · rw [if_pos hf, byteUnits_of_f0 hf]

theorem wfChar_length_four {h : Nat} {t : List Nat} (hw : wfChar (h :: t) = true)
    (hf : 0xF0 ≤ h) : (h :: t).length = 4 := by
  obtain ⟨_, _, hl⟩ := wfChar_cons hw
  rw [hl]
  unfold leadLen
  rw [if_neg (by omega), if_neg (by omega), if_neg (by omega)]

theorem convAux_stop {target cnt : Nat} {b : Nat} (i : Nat) (rest : List Nat)
    (h : target < cnt + byteUnits b) :
    convAux target cnt i (b :: rest) = i := by
  simp [convAux, h]

theorem convAux_append {target : Nat} (bs : List Nat) :
    ∀ cnt i rest, cnt + count_utf16 bs ≤ target →
      convAux target cnt i (bs ++ rest)
        = convAux target (cnt + count_utf16 bs) (i + bs.length) rest := by
  induction bs with
  | nil => intro cnt i rest _; simp [count_utf16]
  | cons b bs ih =>
    intro cnt i rest hle
    have hcount : count_utf16 (b :: bs) = byteUnits b + count_utf16 bs := rfl
    have hb : ¬ target < cnt + byteUnits b := by omega
    simp only [List.cons_append, convAux, if_neg hb, List.append_eq]
    rw [ih (cnt + byteUnits b) (i + 1) rest (by omega)]
    congr 1 <;> [skip; simp [List.length_cons]] <;> omega

/-- Scanning past a prefix whose full UTF-16 count is within the target
lands exactly at the end of the prefix when the next byte pushes the
count past the target (or the string ends there). -/
theorem conv_stops_at (A B : List Nat) (target : Nat)
    (hA : count_utf16 A ≤ target)
    (hB : B = [] ∨ ∃ h t, B = h :: t ∧ target < count_utf16 A + byteUnits h) :
    conv_utf16_to_utf8_offset (A ++ B) target = A.length := by
  unfold conv_utf16_to_utf8_offset
  rw [convAux_append A 0 0 B (by omega)]
  rcases hB with rfl | ⟨h, t, rfl, hlt⟩
  · simp [convAux]
  · rw [convAux_stop _ _ (by omega)]
    omega

theorem count_utf16_ascii {s : List Nat} (h : ∀ b ∈ s, b < 0x80) :
    count_utf16 s = s.length := by
  induction s with
  | nil => rfl
  | cons b bs ih =>
    have hb0 := h b (List.mem_cons_self b bs)
    have hb : byteUnits b = 1 := by
      unfold byteUnits
      rw [if_pos (Or.inl hb0), if_neg (by omega)]
    show byteUnits b + count_utf16 bs = bs.length + 1
    rw [hb, ih fun x hx => h x (List.mem_cons_of_mem b hx)]
    omega

theorem isCharBoundary_ascii {s : List Nat} (h : ∀ b ∈ s, b < 0x80)
    {i : Nat} (hi : i ≤ s.length) : isCharBoundary s i = true := by
  unfold isCharBoundary
  by_cases h0 : i = 0
  · simp [h0]
  rw [if_neg h0]
  rcases Nat.lt_or_ge i s.length with hlt | hge
  · rw [List.get?_eq_getElem?, List.getElem?_eq_getElem hlt]
    have hb := h _ (List.getElem_mem hlt)
    simp only [isCont, Bool.not_eq_true', Bool.and_eq_false_imp,
      decide_eq_true_eq, decide_eq_false_iff_not, not_lt]
    omega
  · have hil : i = s.length := by omega
    rw [List.get?_eq_getElem?, List.getElem?_eq_none (by omega)]
    simp [hil]

theorem isCharBoundary_mid (A : List Nat) (h : Nat) (t B : List Nat) (j : Nat)
    (hj : 0 < j) (hjt : j < (h :: t).length) (hc : ∀ b ∈ t, isCont b = true) :
    isCharBoundary (A ++ ((h :: t) ++ B)) (A.length + j) = false := by
  unfold isCharBoundary
  rw [if_neg (by omega)]
  have h1 : (A ++ ((h :: t) ++ B)).get? (A.length + j) = ((h :: t) ++ B).get? j := by
    rw [List.get?_eq_getElem?, List.get?_eq_getElem?,
      List.getElem?_append_right (by omega)]
    congr 1
    omega
  have h2 : ((h :: t) ++ B).get? j = (h :: t).get? j := by
    rw [List.get?_eq_getElem?, List.get?_eq_getElem?, List.getElem?_append_left (by omega)]
  rw [h1, h2]
  obtain ⟨j, rfl⟩ : ∃ m, j = m + 1 := ⟨j - 1, by omega⟩
  have hjl : j < t.length := by
    simp only [List.length_cons] at hjt
    omega
  have h3 : (h :: t).get? (j + 1) = t.get? j := rfl
  rw [h3, List.get?_eq_getElem?, List.getElem?_eq_getElem hjl]
  simp [hc _ (List.getElem_mem hjl)]

theorem nativeOffsetToWire_of_not_boundary {s : List Nat} {i : Nat}
    (h : isCharBoundary s i = false) : nativeOffsetToWire s i = none := by
  unfold nativeOffsetToWire strSlice
  rw [if_neg]
  · rfl
  · intro hcond
    rw [h] at hcond
    exact absurd hcond.2.2 (by simp)

theorem wfChar_ne_nil {c : List Nat} (hw : wfChar c = true) :
    ∃ h t, c = h :: t := by
  cases c with
  | nil => exact absurd hw (by simp [wfChar])
  | cons h t => exact ⟨h, t, rfl⟩

theorem flatten_take_append (cs : List (List Nat)) (k : Nat) :
    (cs.take k).flatten ++ (cs.drop k).flatten = cs.flatten := by
  rw [← List.flatten_append, List.take_append_drop]

theorem mem_of_drop_eq_cons {cs : List (List Nat)} {k : Nat} {c : List Nat}
    {rest : List (List Nat)} (h : cs.drop k = c :: rest) : c ∈ cs :=
  List.mem_of_mem_drop (h ▸ List.mem_cons_self c rest)

/-- C5 (amended).  For a text that is a concatenation of well-formed UTF-8
code-point sequences `cs`, with `k` ranging over code-point boundaries
(byte offset `(cs.take k).flatten.length`, wire offset
`count_utf16 (cs.take k).flatten`):

1. the native→wire conversion (`count_utf16` of the byte prefix) and the
   wire→native conversion (`conv_utf16_to_utf8_offset`) are exact mutual
   inverses at every code-point boundary;
2. a wire offset falling mid-sequence (one unit into a surrogate pair,
   i.e. into a code point whose lead byte is `≥ 0xF0`) is rounded down by
   the wire→native conversion to the boundary before it;
3. but a native byte offset falling mid-sequence is **not** rounded down:
   the string slicing that feeds `count_utf16` fails the char-boundary
   check and panics (`none`). -/
theorem c5_offset_codec_inverse (cs : List (List Nat))
    (hwf : ∀ c ∈ cs, wfChar c = true) :
    (∀ k, k ≤ cs.length →
        conv_utf16_to_utf8_offset cs.flatten (count_utf16 (cs.take k).flatten)
            = (cs.take k).flatten.length
          ∧ count_utf16 (cs.flatten.take (cs.take k).flatten.length)
            = count_utf16 (cs.take k).flatten)
    ∧ (∀ k c rest, cs.drop k = c :: rest → 0xF0 ≤ c.headI →
        conv_utf16_to_utf8_offset cs.flatten (count_utf16 (cs.take k).flatten + 1)
            = (cs.take k).flatten.length)
    ∧ (∀ k c rest j, cs.drop k = c :: rest → 0 < j → j < c.length →
        nativeOffsetToWire cs.flatten ((cs.take k).flatten.length + j) = none) := by
  refine ⟨?_, ?_, ?_⟩
  · intro k _
    rw [← flatten_take_append cs k]
    refine ⟨conv_stops_at _ _ _ (le_refl _) ?_, by rw [List.take_left]⟩
    cases hd : cs.drop k with
    | nil => left; rfl
    | cons c rest =>
      have hw := hwf c (mem_of_drop_eq_cons hd)
      obtain ⟨h, t, rfl⟩ := wfChar_ne_nil hw
      right
      refine ⟨h, t ++ rest.flatten, by simp, ?_⟩
      have := byteUnits_pos_of_not_cont (wfChar_cons hw).1
      omega
  · intro k c rest hd hf
    rw [← flatten_take_append cs k]
    have hw := hwf c (mem_of_drop_eq_cons hd)
    obtain ⟨h, t, rfl⟩ := wfChar_ne_nil hw
    have hfh : 0xF0 ≤ h := hf
    apply conv_stops_at _ _ _ (by omega)
    right
    refine ⟨h, t ++ rest.flatten, by rw [hd]; simp, ?_⟩
    rw [byteUnits_of_f0 hfh]
    omega
  · intro k c rest j hd hj hjl
    have hw := hwf c (mem_of_drop_eq_cons hd)
    obtain ⟨h, t, rfl⟩ := wfChar_ne_nil hw
    apply nativeOffsetToWire_of_not_boundary
    rw [← flatten_take_append cs k, hd, List.flatten_cons]
    exact isCharBoundary_mid _ h t _ j hj hjl (wfChar_cons hw).2.1

/-- C5 counterexample: in the two-byte text `"é" = [0xC3, 0xA9]`, the
native byte offset 1 falls mid-sequence; the nearest code-point boundary
not exceeding it is 0, whose wire offset is 0 — but the native→wire
conversion at offset 1 is a panic (`none`), and `count_utf16` of the raw
one-byte prefix is 1, not 0.  So a mid-sequence native offset is not
rounded down as the claim states. -/
theorem c5_native_mid_not_rounded_down :
    wfChar [0xC3, 0xA9] = true
    ∧ isCharBoundary [0xC3, 0xA9] 1 = false
    ∧ nativeOffsetToWire [0xC3, 0xA9] 0 = some 0
    ∧ nativeOffsetToWire [0xC3, 0xA9] 1 = none
    ∧ count_utf16 (List.take 1 [0xC3, 0xA9]) = 1 :=
  ⟨rfl, rfl, rfl, rfl, rfl⟩

/-- C5 witness: the amended theorem applied to the concrete text
`"a😀é"`, i.e. `[[0x61], [0xF0, 0x9F, 0x98, 0x80], [0xC3, 0xA9]]`:
the boundary after the surrogate-pair character (byte offset 5, wire
offset 3) round-trips; wire offset 2 (mid-surrogate) rounds down to byte
offset 1; native byte offset 3 (mid-sequence) is rejected. -/
theorem c5_offset_codec_inverse_witness :
    conv_utf16_to_utf8_offset [0x61, 0xF0, 0x9F, 0x98, 0x80, 0xC3, 0xA9] 3 = 5
    ∧ count_utf16 (List.take 5 [0x61, 0xF0, 0x9F, 0x98, 0x80, 0xC3, 0xA9]) = 3
    ∧ conv_utf16_to_utf8_offset [0x61, 0xF0, 0x9F, 0x98, 0x80, 0xC3, 0xA9] 2 = 1
    ∧ nativeOffsetToWire [0x61, 0xF0, 0x9F, 0x98, 0x80, 0xC3, 0xA9] 3 = none := by
  have h := c5_offset_codec_inverse [[0x61], [0xF0, 0x9F, 0x98, 0x80], [0xC3, 0xA9]]
    (by decide)
  exact ⟨(h.1 2 (by decide)).1, (h.1 2 (by decide)).2,
    h.2.1 1 [0xF0, 0x9F, 0x98, 0x80] [[0xC3, 0xA9]] rfl (by decide),
    h.2.2 1 [0xF0, 0x9F, 0x98, 0x80] [[0xC3, 0xA9]] 2 rfl (by decide) (by decide)⟩

/-- C6: for an all-ASCII text every offset `i ≤ len` is a boundary and
its wire offset equals the native offset; and around a well-formed
code point requiring a surrogate pair (lead byte `≥ 0xF0`) the wire
offset of the boundary after it is exactly 2 greater than the wire offset
before it, while the native byte offset is exactly 4 greater. -/
theorem c6_ascii_and_surrogate_pair (s a b c : List Nat) :
    ((∀ x ∈ s, x < 0x80) → ∀ i, i ≤ s.length → nativeOffsetToWire s i = some i)
    ∧ (wfChar c = true → 0xF0 ≤ c.headI →
        c.length = 4
        ∧ count_utf16 (List.take (a.length + c.length) (a ++ (c ++ b)))
            = count_utf16 (List.take a.length (a ++ (c ++ b))) + 2) := by
  constructor
  · intro hs i hi
    unfold nativeOffsetToWire strSlice
    rw [if_pos ⟨Nat.zero_le i, isCharBoundary_ascii hs (Nat.zero_le _),
      isCharBoundary_ascii hs hi⟩]
    show some (count_utf16 ((s.take i).drop 0)) = some i
    rw [List.drop_zero,
      count_utf16_ascii fun x hx => hs x (List.mem_of_mem_take hx),
      List.length_take]
    congr 1
    omega
  · intro hw hf
    obtain ⟨h, t, rfl⟩ := wfChar_ne_nil hw
    have hfh : 0xF0 ≤ h := hf
    refine ⟨wfChar_length_four hw hfh, ?_⟩
    have h1 : List.take (a.length + (h :: t).length) (a ++ (h :: t ++ b)) = a ++ h :: t := by
      rw [← List.append_assoc]
      exact List.take_left' (by rw [List.length_append])
    have h2 : List.take a.length (a ++ (h :: t ++ b)) = a := List.take_left' rfl
    rw [h1, h2, count_utf16_append, count_utf16_char hw, if_pos hfh]

/-!
## Typed diff operations rendered to the wire JSON shape

`DiffOp` is the update vocabulary of §6 of the protocol
(`{op: "ins"|"copy"|"skip"|"invalidate", n?, lines?}`); `DiffOp.toJson`
renders an op to exactly the JSON object `apply_update` consumes.
-/

inductive DiffOp where
  | ins (lines : List Json)
  | copy (n : Nat)
  | skip (n : Nat)
  | invalidate (n : Nat)

def DiffOp.toJson : DiffOp → Json
  | .ins ls => .obj [(ascii "op", .str (ascii "ins")), (ascii "lines", .arr ls)]
  | .copy n => .obj [(ascii "op", .str (ascii "copy")), (ascii "n", .num (Int.ofNat n))]
  | .skip n => .obj [(ascii "op", .str (ascii "skip")), (ascii "n", .num (Int.ofNat n))]
  | .invalidate n =>
    .obj [(ascii "op", .str (ascii "invalidate")), (ascii "n", .num (Int.ofNat n))]

def mkUpdate (ops : List DiffOp) : Json :=
  .obj [(ascii "ops", .arr (ops.map DiffOp.toJson))]

/-- Well-formedness of one op: counts fit in `u64` and inserted line
payloads parse. -/
def DiffOp.wfB : DiffOp → Bool
  | .ins ls => (parseLines ls).isSome
  | .copy n => decide (n < 2 ^ 64)
  | .skip n => decide (n < 2 ^ 64)
  | .invalidate n => decide (n < 2 ^ 64)

def opIns : DiffOp → Nat
  | .ins ls => ls.length
  | _ => 0

def opCopy : DiffOp → Nat
  | .copy n => n
  | _ => 0

def opSkip : DiffOp → Nat
  | .skip n => n
  | _ => 0

def opInv : DiffOp → Nat
  | .invalidate n => n
  | _ => 0

/-- Number of lines inserted by an op sequence. -/
def insCount (ops : List DiffOp) : Nat := (ops.map opIns).sum

/-- Number of lines copied by an op sequence. -/
def copyCount (ops : List DiffOp) : Nat := (ops.map opCopy).sum

/-- Number of lines skipped by an op sequence. -/
def skipCount (ops : List DiffOp) : Nat := (ops.map opSkip).sum

/-- Number of rows invalidated by an op sequence. -/
def invCount (ops : List DiffOp) : Nat := (ops.map opInv).sum

theorem as_u64_ofNat {n : Nat} (hn : n < 2 ^ 64) :
    Json.as_u64 (.num (Int.ofNat n)) = some n := by
  show (if n < 2 ^ 64 then some n else none) = some n
  rw [if_pos hn]

theorem applyOps_cons_ins (acc old : List (Option Line)) (ls ops : List Json) :
    applyOps acc old (DiffOp.toJson (.ins ls) :: ops)
      = match parseLines ls with
        | none => none
        | some parsed => applyOps (acc ++ parsed.map some) old ops := rfl

theorem index_op_copy (n : Nat) :
    Json.index (DiffOp.toJson (.copy n)) (ascii "op") = .str (ascii "copy") := rfl

theorem index_n_copy (n : Nat) :
    Json.index (DiffOp.toJson (.copy n)) (ascii "n") = .num (Int.ofNat n) := rfl

theorem index_op_skip (n : Nat) :
    Json.index (DiffOp.toJson (.skip n)) (ascii "op") = .str (ascii "skip") := rfl

theorem index_n_skip (n : Nat) :
    Json.index (DiffOp.toJson (.skip n)) (ascii "n") = .num (Int.ofNat n) := rfl

theorem index_op_invalidate (n : Nat) :
    Json.index (DiffOp.toJson (.invalidate n)) (ascii "op")
      = .str (ascii "invalidate") := rfl

theorem index_n_invalidate (n : Nat) :
    Json.index (DiffOp.toJson (.invalidate n)) (ascii "n") = .num (Int.ofNat n) := rfl

theorem jeq_copy_ins : jeqStr (.str (ascii "copy")) (ascii "ins") = false := rfl

theorem jeq_copy_copy : jeqStr (.str (ascii "copy")) (ascii "copy") = true := rfl

theorem jeq_skip_ins : jeqStr (.str (ascii "skip")) (ascii "ins") = false := rfl

theorem jeq_skip_copy : jeqStr (.str (ascii "skip")) (ascii "copy") = false := rfl

theorem jeq_skip_skip : jeqStr (.str (ascii "skip")) (ascii "skip") = true := rfl

theorem jeq_inv_ins : jeqStr (.str (ascii "invalidate")) (ascii "ins") = false := rfl

theorem jeq_inv_copy : jeqStr (.str (ascii "invalidate")) (ascii "copy") = false := rfl

theorem jeq_inv_skip : jeqStr (.str (ascii "invalidate")) (ascii "skip") = false := rfl

theorem jeq_inv_inv :
    jeqStr (.str (ascii "invalidate")) (ascii "invalidate") = true := rfl

theorem applyOps_cons_copy (acc old : List (Option Line)) {n : Nat}
    (hn : n < 2 ^ 64) (ops : List Json) :
    applyOps acc old (DiffOp.toJson (.copy n) :: ops)
      = applyOps (acc ++ (copyN n old).1) (copyN n old).2 ops := by
  rw [applyOps, index_op_copy, index_n_copy, jeq_copy_ins, jeq_copy_copy]
  rw [if_neg (by simp), if_pos rfl, as_u64_ofNat hn]

theorem applyOps_cons_skip (acc old : List (Option Line)) {n : Nat}
    (hn : n < 2 ^ 64) (ops : List Json) :
    applyOps acc old (DiffOp.toJson (.skip n) :: ops)
      = applyOps acc (old.drop (n + 1)) ops := by
  rw [applyOps, index_op_skip, index_n_skip, jeq_skip_ins, jeq_skip_copy,
    jeq_skip_skip]
  rw [if_neg (by simp), if_neg (by simp), if_pos rfl, as_u64_ofNat hn]

theorem applyOps_cons_invalidate (acc old : List (Option Line)) {n : Nat}
    (hn : n < 2 ^ 64) (ops : List Json) :
    applyOps acc old (DiffOp.toJson (.invalidate n) :: ops)
      = applyOps (acc ++ List.replicate n none) old ops := by
  rw [applyOps, index_op_invalidate, index_n_invalidate, jeq_inv_ins,
    jeq_inv_copy, jeq_inv_skip, jeq_inv_inv]
  rw [if_neg (by simp), if_neg (by simp), if_neg (by simp), if_pos rfl,
    as_u64_ofNat hn]

theorem copyN_fst (n : Nat) :
    ∀ old, (copyN n old).1 = old.take n ++ List.replicate (n - old.length) none := by
  induction n with
  | zero => intro old; simp [copyN]
  | succ n ih =>
    intro old
    cases old with
    | nil => simp [copyN, ih, List.replicate_succ]
    | cons x xs => simp [copyN, ih xs]

theorem copyN_snd (n : Nat) : ∀ old, (copyN n old).2 = old.drop n := by
  induction n with
  | zero => intro old; simp [copyN]
  | succ n ih =>
    intro old
    cases old with
    | nil => simp [copyN, ih]
    | cons x xs => simp [copyN, ih xs]

theorem copyN_fst_length (n : Nat) : ∀ old, (copyN n old).1.length = n := by
  induction n with
  | zero => intro old; rfl
  | succ n ih =>
    intro old
    cases old with
    | nil => simp [copyN, ih]
    | cons x xs => simp [copyN, ih xs]

theorem parseLines_length :
    ∀ {ls : List Json} {ps : List Line}, parseLines ls = some ps → ps.length = ls.length := by
  intro ls
  induction ls with
  | nil =>
    intro ps h
    injection h with h
    subst h
    rfl
  | cons l ls ih =>
    intro ps h
    simp only [parseLines] at h
    cases hf : Line.from_json l with
    | none => rw [hf] at h; cases h
    | some line =>
      rw [hf] at h
      cases hp : parseLines ls with
      | none => rw [hp] at h; cases h
      | some rest =>
        rw [hp] at h
        injection h with h
        subst h
        simp [ih hp]

/-- The no-failure and length bookkeeping of the op loop: with well-formed
ops, `applyOps` succeeds and the output length is the input length plus
inserted + copied + invalidated counts. -/
theorem applyOps_some_length (ops : List DiffOp) :
    ∀ acc old : List (Option Line), (∀ op ∈ ops, op.wfB = true) →
      ∃ res, applyOps acc old (ops.map DiffOp.toJson) = some res
        ∧ res.length = acc.length + insCount ops + copyCount ops + invCount ops := by
  induction ops with
  | nil =>
    intro acc old _
    exact ⟨acc, rfl, by simp [insCount, copyCount, invCount]⟩
  | cons op ops ih =>
    intro acc old hwf
    have hop := hwf op (List.mem_cons_self op ops)
    have hops := fun o ho => hwf o (List.mem_cons_of_mem op ho)
    have hcounts : ∀ f : DiffOp → Nat,
        ((op :: ops).map f).sum = f op + (ops.map f).sum := by
      intro f; simp
    cases op with
    | ins ls =>
      simp only [DiffOp.wfB] at hop
      cases hp : parseLines ls with
      | none => rw [hp] at hop; cases hop
      | some parsed =>
        rw [List.map_cons, applyOps_cons_ins, hp]
        obtain ⟨res, h1, h2⟩ := ih (acc ++ parsed.map some) old hops
        refine ⟨res, h1, ?_⟩
        rw [h2]
        simp only [insCount, copyCount, invCount, hcounts, opIns, opCopy, opInv,
          List.length_append, List.length_map, parseLines_length hp]
        omega
    | copy n =>
      replace hop : n < 2 ^ 64 := by simpa [DiffOp.wfB] using hop
      rw [List.map_cons, applyOps_cons_copy _ _ hop]
      obtain ⟨res, h1, h2⟩ := ih (acc ++ (copyN n old).1) (copyN n old).2 hops
      refine ⟨res, h1, ?_⟩
      rw [h2]
      simp only [insCount, copyCount, invCount, hcounts, opIns, opCopy, opInv,
        List.length_append, copyN_fst_length]
      omega
    | skip n =>
      replace hop : n < 2 ^ 64 := by simpa [DiffOp.wfB] using hop
      rw [List.map_cons, applyOps_cons_skip _ _ hop]
      obtain ⟨res, h1, h2⟩ := ih acc (old.drop (n + 1)) hops
      refine ⟨res, h1, ?_⟩
      rw [h2]
      simp only [insCount, copyCount, invCount, hcounts, opIns, opCopy, opInv]
      omega
    | invalidate n =>
      replace hop : n < 2 ^ 64 := by simpa [DiffOp.wfB] using hop
      rw [List.map_cons, applyOps_cons_invalidate _ _ hop]
      obtain ⟨res, h1, h2⟩ := ih (acc ++ List.replicate n none) old hops
      refine ⟨res, h1, ?_⟩
      rw [h2]
      simp only [insCount, copyCount, invCount, hcounts, opIns, opCopy, opInv,
        List.length_append, List.length_replicate]
      omega

/-- A sample line `"l<i>"` with no carets and no styles, used as concrete
cache content. -/
def sampleLine (i : Nat) : Line := ⟨ascii "l" ++ [0x30 + i], [], []⟩

/-- A concrete five-line cache (old lines 0..4). -/
def cacheFive : LineCache :=
  ⟨[some (sampleLine 0), some (sampleLine 1), some (sampleLine 2),
    some (sampleLine 3), some (sampleLine 4)]⟩

/-- C1 (code bug): applying `[Copy(2), Skip(1), Copy(2)]` to the five-line
cache.  Because `skip` runs `old_iter.nth(n)` (linecache.rs:103) and
`Iterator::nth(n)` consumes `n + 1` elements, `Skip(1)` drops old lines 2
**and** 3; the following `Copy(2)` then yields old line 4 and a `None`
filler.  The claim's expected result — new lines 2–3 equal to old lines
3–4 — does not hold. -/
theorem c1_skip_consumes_one_extra :
    cacheFive.apply_update (mkUpdate [.copy 2, .skip 1, .copy 2])
      = some ⟨[some (sampleLine 0), some (sampleLine 1), some (sampleLine 4), none]⟩
    ∧ (LineCache.mk [some (sampleLine 0), some (sampleLine 1),
        some (sampleLine 4), none]).height = 4
    ∧ (LineCache.mk [some (sampleLine 0), some (sampleLine 1),
        some (sampleLine 4), none]).get_line 2 ≠ some (sampleLine 3)
    ∧ (LineCache.mk [some (sampleLine 0), some (sampleLine 1),
        some (sampleLine 4), none]).get_line 3 ≠ some (sampleLine 4) := by
  refine ⟨rfl, rfl, by decide, by decide⟩

/-- The update `{ops: [{op:"ins", lines:[{}]}]}` — a line record missing
its required `text` field. -/
def malformedInsUpdate : Json :=
  .obj [(ascii "ops", .arr [.obj [(ascii "op", .str (ascii "ins")),
    (ascii "lines", .arr [.obj []])]])]

/-- C2 (code bug): on a line record with no `text` field,
`Line::from_json` hits `as_str().unwrap()` on `Null` and `apply_update`
aborts (a Rust panic, modelled by `none`) instead of returning a typed
parse failure to the caller. -/
theorem c2_malformed_line_aborts :
    Line.from_json (.obj []) = none
    ∧ LineCache.apply_update ⟨[]⟩ malformedInsUpdate = none := ⟨rfl, rfl⟩

/-- C4: for a well-formed op sequence whose cumulative Copy+Skip counts do
not exceed the old cache height, `apply_update` succeeds and the new
height is (inserted count) + (copied count) + (invalidated count). -/
theorem c4_height_is_ins_copy_inv (cache : LineCache) (ops : List DiffOp)
    (hwf : ∀ op ∈ ops, op.wfB = true)
    (hbound : copyCount ops + skipCount ops ≤ cache.height) :
    (cache.apply_update (mkUpdate ops)).map LineCache.height
      = some (insCount ops + copyCount ops + invCount ops) := by
  obtain ⟨res, h1, h2⟩ := applyOps_some_length ops [] cache.lines hwf
  have h0 : cache.apply_update (mkUpdate ops)
      = (applyOps [] cache.lines (ops.map DiffOp.toJson)).map LineCache.mk := rfl
  rw [h0, h1]
  show some (LineCache.mk res).height = _
  unfold LineCache.height
  rw [h2]
  simp

/-- C4 witness: `[Copy(1), Skip(1), Invalidate(2), Ins(["hi"])]` applied
to a two-row cache (Copy+Skip = 2 ≤ 2) gives height 1 + 1 + 2 = 4. -/
theorem c4_height_is_ins_copy_inv_witness :
    (LineCache.apply_update ⟨[some (sampleLine 0), none]⟩
        (mkUpdate [.copy 1, .skip 1, .invalidate 2,
          .ins [.obj [(ascii "text", .str (ascii "hi"))]]])).map LineCache.height
      = some 4 :=
  c4_height_is_ins_copy_inv ⟨[some (sampleLine 0), none]⟩
    [.copy 1, .skip 1, .invalidate 2, .ins [.obj [(ascii "text", .str (ascii "hi"))]]]
    (by decide) (by decide)

/-- C8: a `Copy(n)` or `Skip(n)` whose count exceeds what remains of the
old snapshot does not fail: `Copy` pads the shortfall past the end with
`None` placeholders (`old_iter.next().unwrap_or_default()`), and `Skip`
simply exhausts the iterator. -/
theorem c8_copy_skip_overrun_total (cache : LineCache) (n : Nat)
    (hn : n < 2 ^ 64) (hgt : cache.height < n) :
    cache.apply_update (mkUpdate [.copy n])
        = some ⟨cache.lines ++ List.replicate (n - cache.height) none⟩
    ∧ cache.apply_update (mkUpdate [.skip n]) = some ⟨[]⟩ := by
  constructor
  · have h0 : cache.apply_update (mkUpdate [.copy n])
        = (applyOps [] cache.lines [DiffOp.toJson (.copy n)]).map LineCache.mk := rfl
    rw [h0, applyOps_cons_copy _ _ hn]
    show some (LineCache.mk ([] ++ (copyN n cache.lines).1)) = _
    rw [List.nil_append, copyN_fst,
      List.take_of_length_le (Nat.le_of_lt hgt)]
    rfl
  · have h0 : cache.apply_update (mkUpdate [.skip n])
        = (applyOps [] cache.lines [DiffOp.toJson (.skip n)]).map LineCache.mk := rfl
    rw [h0, applyOps_cons_skip _ _ hn]
    rfl

/-- C8 witness: `Copy(3)` on a one-line cache yields the line plus two
`None` fillers; `Skip(3)` on it yields the empty cache — neither fails. -/
theorem c8_copy_skip_overrun_total_witness :
    LineCache.apply_update ⟨[some (sampleLine 0)]⟩ (mkUpdate [.copy 3])
        = some ⟨[some (sampleLine 0), none, none]⟩
    ∧ LineCache.apply_update ⟨[some (sampleLine 0)]⟩ (mkUpdate [.skip 3])
        = some ⟨[]⟩ :=
  c8_copy_skip_overrun_total ⟨[some (sampleLine 0)]⟩ 3 (by decide) (by decide)

/-!
## Receive-loop and correlator claims
-/

theorem index_method_resp (i : Int) (res : Json) :
    Json.index (.obj [(ascii "id", .num i), (ascii "result", res)])
      (ascii "method") = .null := rfl

theorem index_id_resp (i : Int) (res : Json) :
    Json.index (.obj [(ascii "id", .num i), (ascii "result", res)])
      (ascii "id") = .num i := rfl

theorem index_result_resp (i : Int) (res : Json) :
    Json.index (.obj [(ascii "id", .num i), (ascii "result", res)])
      (ascii "result") = res := rfl

theorem lookupRemove_absent {pending : List (Nat × κ)} {i : Nat}
    (h : ∀ e ∈ pending, e.1 ≠ i) : lookupRemove i pending = (none, pending) := by
  induction pending with
  | nil => rfl
  | cons e rest ih =>
    obtain ⟨k, v⟩ := e
    have hk : ¬ k = i := h (k, v) (List.mem_cons_self _ _)
    simp only [lookupRemove, if_neg hk,
      ih fun x hx => h x (List.mem_cons_of_mem _ hx)]

/-- C3 counterexample: a response matching the single pending entry.  The
receive loop's trace is lock-acquire, remove, **invoke, then release**:
the completion runs while the state mutex is still held (the `MutexGuard`
of rpc.rs:72 is alive across the `map_or_else`), so it is not invoked
"after the lock has been released" as the claim states. -/
theorem c3_callback_invoked_under_lock :
    handleMsg (κ := Nat) [(0, 7)]
        (.obj [(ascii "id", .num 0), (ascii "result", .null)])
      = ([], [.lockAcquire, .removePending 0, .invokeCompletion 7 .null,
              .lockRelease])
    ∧ invokedUnlocked 0
        (handleMsg (κ := Nat) [(0, 7)]
          (.obj [(ascii "id", .num 0), (ascii "result", .null)])).2 = false :=
  ⟨rfl, rfl⟩

/-- C3 (amended): when a response matches a pending entry, the entry is
removed from the map **before** the completion is invoked, but the lock is
released only **after** the invocation — the completion runs inside the
critical section, so it must not issue requests on the same correlator. -/
theorem c3_remove_then_invoke_then_unlock (pending : List (Nat × κ)) (i : Nat)
    (res : Json) (cb : κ) (hi : i < 2 ^ 64)
    (hfound : (lookupRemove i pending).1 = some cb) :
    handleMsg pending (.obj [(ascii "id", .num (Int.ofNat i)), (ascii "result", res)])
      = ((lookupRemove i pending).2,
         [.lockAcquire, .removePending i, .invokeCompletion cb res, .lockRelease]) := by
  unfold handleMsg
  rw [index_method_resp, index_id_resp, as_u64_ofNat hi, index_result_resp]
  simp only [hfound]

/-- C3 witness: the amended trace at a concrete pending map `[(2, 5)]` and
response id 2. -/
theorem c3_remove_then_invoke_then_unlock_witness :
    handleMsg (κ := Nat) [(2, 5)]
        (.obj [(ascii "id", .num (Int.ofNat 2)), (ascii "result", .null)])
      = ([], [.lockAcquire, .removePending 2, .invokeCompletion 5 .null,
              .lockRelease]) :=
  c3_remove_then_invoke_then_unlock [(2, 5)] 2 .null 5 (by decide) rfl

theorem sendRequests_ids (reqs : List (List Nat × Json × κ)) :
    ∀ st : CoreState κ, st.id + reqs.length ≤ 2 ^ 64 →
      (sendRequests st reqs).2 = (List.range reqs.length).map (st.id + ·) := by
  induction reqs with
  | nil => intro st _; rfl
  | cons r rest ih =>
    obtain ⟨m, p, cb⟩ := r
    intro st h
    cases rest with
    | nil =>
      show [st.id] = (List.range 1).map (st.id + ·)
      rfl
    | cons r2 rest2 =>
      have hlen2 : ((m, p, cb) :: r2 :: rest2 : List (List Nat × Json × κ)).length
          = rest2.length + 2 := by simp
      have hlen1 : (r2 :: rest2 : List (List Nat × Json × κ)).length
          = rest2.length + 1 := by simp
      have hlt : st.id + 1 < 2 ^ 64 := by omega
      have hid : (Core.send_request st m p cb).1.id = st.id + 1 :=
        Nat.mod_eq_of_lt hlt
      have htail := ih (Core.send_request st m p cb).1 (by omega)
      show st.id :: (sendRequests (Core.send_request st m p cb).1 (r2 :: rest2)).2
          = (List.range ((r2 :: rest2).length + 1)).map (st.id + ·)
      rw [htail, hid, List.range_succ_eq_map, List.map_cons, List.map_map]
      have hfun : (fun x => st.id + 1 + x) = ((fun x => st.id + x) ∘ Nat.succ) := by
        funext k
        show st.id + 1 + k = st.id + (k + 1)
        omega
      rw [hfun, Nat.add_zero]

/-- C7: from a fresh correlator (id counter 0), any sequence of at most
`2 ^ 64` serialized `send_request` calls allocates exactly the ids
`0, 1, 2, …`: the k-th call gets id k — distinct, strictly increasing,
no gaps.  (The counter is a `u64`; beyond `2 ^ 64` calls it would wrap.) -/
theorem c7_send_request_ids (reqs : List (List Nat × Json × κ))
    (h : reqs.length ≤ 2 ^ 64) :
    (sendRequests (CoreState.initial κ) reqs).2 = List.range reqs.length
    ∧ (sendRequests (CoreState.initial κ) reqs).2.Pairwise (· < ·) := by
  have hids := sendRequests_ids reqs (CoreState.initial κ)
    (by show 0 + reqs.length ≤ 2 ^ 64; omega)
  have hz : (CoreState.initial κ).id = 0 := rfl
  rw [hz] at hids
  simp only [Nat.zero_add, List.map_id'] at hids
  exact ⟨hids, hids ▸ List.pairwise_lt_range _⟩

/-- C7 witness: three serialized requests on a fresh correlator get ids
`[0, 1, 2]`. -/
theorem c7_send_request_ids_witness :
    (sendRequests (CoreState.initial Nat)
        [(ascii "a", Json.null, 1), (ascii "b", Json.null, 2),
         (ascii "c", Json.null, 3)]).2 = List.range 3
    ∧ (sendRequests (CoreState.initial Nat)
        [(ascii "a", Json.null, 1), (ascii "b", Json.null, 2),
         (ascii "c", Json.null, 3)]).2.Pairwise (· < ·) :=
  c7_send_request_ids _ (by decide)

/-- C9: an inbound response whose id is not in the pending map only logs a
diagnostic ("unexpected result"): the pending map is returned unchanged,
no completion is invoked, and the receive loop goes on to process the
remaining messages from the same pending map — the message is not fatal. -/
theorem c9_unknown_id_nonfatal (pending : List (Nat × κ)) (i : Nat) (res : Json)
    (rest : List Json) (hi : i < 2 ^ 64) (habs : ∀ e ∈ pending, e.1 ≠ i) :
    handleMsg pending (.obj [(ascii "id", .num (Int.ofNat i)), (ascii "result", res)])
      = (pending, [.lockAcquire, .removePending i, .logUnexpected, .lockRelease])
    ∧ runLoop pending
        ((.obj [(ascii "id", .num (Int.ofNat i)), (ascii "result", res)]) :: rest)
      = ((runLoop pending rest).1,
         [.lockAcquire, .removePending i, .logUnexpected, .lockRelease]
           ++ (runLoop pending rest).2) := by
  have h1 : handleMsg pending
      (.obj [(ascii "id", .num (Int.ofNat i)), (ascii "result", res)])
      = (pending, [.lockAcquire, .removePending i, .logUnexpected, .lockRelease]) := by
    unfold handleMsg
    rw [index_method_resp, index_id_resp, as_u64_ofNat hi, index_result_resp]
    simp only [lookupRemove_absent habs]
  refine ⟨h1, ?_⟩
  show ((runLoop (handleMsg pending _).1 rest).1,
        (handleMsg pending _).2 ++ (runLoop (handleMsg pending _).1 rest).2) = _
  rw [h1]

/-- C9 witness: a response with unknown id 5 against the pending map
`[(0, 7), (1, 8)]`, followed by a notification that the loop still
processes. -/
theorem c9_unknown_id_nonfatal_witness :
    handleMsg (κ := Nat) [(0, 7), (1, 8)]
        (.obj [(ascii "id", .num (Int.ofNat 5)), (ascii "result", .null)])
      = ([(0, 7), (1, 8)],
         [.lockAcquire, .removePending 5, .logUnexpected, .lockRelease])
    ∧ runLoop (κ := Nat) [(0, 7), (1, 8)]
        [.obj [(ascii "id", .num (Int.ofNat 5)), (ascii "result", .null)],
         .obj [(ascii "method", .str (ascii "update")), (ascii "params", .null)]]
      = ([(0, 7), (1, 8)],
         [.lockAcquire, .removePending 5, .logUnexpected, .lockRelease,
          .notify (ascii "update") .null]) :=
  c9_unknown_id_nonfatal [(0, 7), (1, 8)] 5 .null
    [.obj [(ascii "method", .str (ascii "update")), (ascii "params", .null)]]
    (by decide) (by decide)

/-- C10: the receive loop checks the string `method` field first: a
message carrying both a string `method` and a numeric `id` is dispatched
to the notification handler, the pending map is untouched, and no
completion is consumed — whatever the id and whatever is pending. -/
theorem c10_method_takes_precedence (pending : List (Nat × κ))
    (method : List Nat) (i : Int) (params res : Json) :
    handleMsg pending (.obj [(ascii "method", .str method), (ascii "id", .num i),
        (ascii "params", params), (ascii "result", res)])
      = (pending, [.notify method params]) := rfl

/-- C6 witness: `"ab"` is ASCII with boundary 1 at wire offset 1, and for
`"x" ++ "😀" ++ ""` the wire offset jumps from 1 to 3 across the
emoji while the byte offset jumps from 1 to 5. -/
theorem c6_ascii_and_surrogate_pair_witness :
    nativeOffsetToWire (ascii "ab") 1 = some 1
    ∧ [0xF0, 0x9F, 0x98, 0x80].length = 4
    ∧ count_utf16 (List.take ((ascii "x").length + 4)
        (ascii "x" ++ ([0xF0, 0x9F, 0x98, 0x80] ++ [])))
      = count_utf16 (List.take (ascii "x").length
        (ascii "x" ++ ([0xF0, 0x9F, 0x98, 0x80] ++ []))) + 2 := by
  have h := c6_ascii_and_surrogate_pair (ascii "ab") (ascii "x") [] [0xF0, 0x9F, 0x98, 0x80]
  exact ⟨h.1 (by decide) 1 (by decide), (h.2 (by decide) (by decide)).1,
    (h.2 (by decide) (by decide)).2⟩
